import Mathlib

set_option linter.unusedVariables false

/- Shallow embedding of the PyCPIO core: the newc header codec, the dedup-aware
entry store, and the CPIOWriter of src/src/pycpio/writer/writer.py.
Raw bytes are modelled as List Nat (one Nat per byte). -/

/-- Modelled from the spec: null padding of header+name and of content to the
next 4-byte boundary (section 4.1; the codec source under src/src/pycpio/header
is not in the tree). pad4 n is the number of padding bytes appended to a region
of length n. -/
def pad4 (n : Nat) : Nat := (4 - n % 4) % 4

/-- Region length after padding to a 4-byte boundary. -/
def align4 (n : Nat) : Nat := n + pad4 n

/-- List of n zero (null) bytes. -/
def zeros : Nat → List Nat
  | 0 => []
  | n + 1 => 0 :: zeros n

/-- ASCII code of the lowercase hex digit for n < 16. -/
def hexDigit (n : Nat) : Nat := if n < 10 then 48 + n else 87 + n

/-- Modelled from the spec: a 32-bit field rendered as exactly 8 zero-padded
ASCII hex digits (section 4.1). -/
def toHex8 (n : Nat) : List Nat :=
  [hexDigit (n / 268435456 % 16), hexDigit (n / 16777216 % 16), hexDigit (n / 1048576 % 16),
   hexDigit (n / 65536 % 16), hexDigit (n / 4096 % 16), hexDigit (n / 256 % 16),
   hexDigit (n / 16 % 16), hexDigit (n % 16)]

/-- Numeric value of one ASCII hex digit, accepting 0-9, a-f and A-F. -/
def hexVal (c : Nat) : Option Nat :=
  if 48 ≤ c ∧ c ≤ 57 then some (c - 48)
  else if 97 ≤ c ∧ c ≤ 102 then some (c - 87)
  else if 65 ≤ c ∧ c ≤ 70 then some (c - 55)
  else none

/-- Modelled from the spec: parse one fixed-width 8-hex-digit field, failing on
any byte that is not a valid hex digit (section 4.1). -/
def parseHex8 : List Nat → Option (Nat × List Nat)
  | c0 :: c1 :: c2 :: c3 :: c4 :: c5 :: c6 :: c7 :: rest => do
    let v0 ← hexVal c0
    let v1 ← hexVal c1
    let v2 ← hexVal c2
    let v3 ← hexVal c3
    let v4 ← hexVal c4
    let v5 ← hexVal c5
    let v6 ← hexVal c6
    let v7 ← hexVal c7
    some (((((((v0 * 16 + v1) * 16 + v2) * 16 + v3) * 16 + v4) * 16 + v5) * 16 + v6) * 16 + v7,
      rest)
  | _ => none

/-- Modelled from the spec: one newc header record, the 13 numeric fields in
on-disk order plus the co-located name (sections 3 and 6). Names are byte
lists (archive-relative path strings). -/
structure HeaderRecord where
  ino : Nat
  mode : Nat
  uid : Nat
  gid : Nat
  nlink : Nat
  mtime : Nat
  filesize : Nat
  devmajor : Nat
  devminor : Nat
  rdevmajor : Nat
  rdevminor : Nat
  namesize : Nat
  check : Nat
  name : List Nat
deriving DecidableEq

/-- The 6-byte newc magic, the ASCII bytes of 070701. -/
def magic : List Nat := [48, 55, 48, 55, 48, 49]

/-- Modelled from the spec: HeaderCodec.encode. Magic, then the 13 fields as
8 hex digits each in the order magic, inode, mode, uid, gid, nlink, mtime,
filesize, devmajor, devminor, rdevmajor, rdevminor, namesize, check, then the
name bytes with a terminating null, padded with nulls to a 4-byte boundary
counted from the start of the header (sections 4.1 and 6). -/
def encodeHeader (h : HeaderRecord) : List Nat :=
  magic ++ toHex8 h.ino ++ toHex8 h.mode ++ toHex8 h.uid ++ toHex8 h.gid ++ toHex8 h.nlink ++
    toHex8 h.mtime ++ toHex8 h.filesize ++ toHex8 h.devmajor ++ toHex8 h.devminor ++
    toHex8 h.rdevmajor ++ toHex8 h.rdevminor ++ toHex8 h.namesize ++ toHex8 h.check ++
    h.name ++ [0] ++ zeros (pad4 (110 + h.namesize))

/-- Modelled from the spec: an ArchiveEntry, one header plus its raw content
bytes (section 3). The content hash is the content itself: dedup compares
contents, and digest collisions are out of scope (section 9). -/
structure Entry where
  hdr : HeaderRecord
  content : List Nat
deriving DecidableEq

/-- Modelled from the spec: the full on-disk frame of one entry, the encoded
header+name followed by the content padded with nulls to a 4-byte boundary
(sections 4.1 and 6). -/
def encodeEntry (e : Entry) : List Nat :=
  encodeHeader e.hdr ++ e.content ++ zeros (pad4 e.content.length)

/-- ASCII bytes of the trailer sentinel name TRAILER!!!. -/
def trailerName : List Nat := [84, 82, 65, 73, 76, 69, 82, 33, 33, 33]

/-- Modelled from the spec: CPIOHeader construction from a name alone, as the
writer does for the trailer (src/src/pycpio/header is not in the tree). All
numeric fields default to zero except nlink, which defaults to 1, and
namesize, which is always computed from the name including its terminating
null (sections 3 and 4.1). -/
def mkHeaderFromName (name : List Nat) : HeaderRecord :=
  { ino := 0, mode := 0, uid := 0, gid := 0, nlink := 1, mtime := 0, filesize := 0,
    devmajor := 0, devminor := 0, rdevmajor := 0, rdevminor := 0,
    namesize := name.length + 1, check := 0, name := name }

/-- The synthetic trailer record built at write time (writer.py line 49). -/
def trailerEntry : Entry := { hdr := mkHeaderFromName trailerName, content := [] }

/-- Modelled from the spec: HeaderCodec.decode fused with the per-entry framing
used by ingestion. Checks the magic, parses the 13 hex fields, and fails when
fewer than header+name+padding+content+padding bytes remain (sections 4.1 and
4.2). Returns the record, its content, and the unconsumed rest. -/
def decodeEntry (bs : List Nat) : Option (HeaderRecord × List Nat × List Nat) :=
  if bs.take 6 = magic then do
    let (ino, r1) ← parseHex8 (bs.drop 6)
    let (mode, r2) ← parseHex8 r1
    let (uid, r3) ← parseHex8 r2
    let (gid, r4) ← parseHex8 r3
    let (nlink, r5) ← parseHex8 r4
    let (mtime, r6) ← parseHex8 r5
    let (filesize, r7) ← parseHex8 r6
    let (devmajor, r8) ← parseHex8 r7
    let (devminor, r9) ← parseHex8 r8
    let (rdevmajor, r10) ← parseHex8 r9
    let (rdevminor, r11) ← parseHex8 r10
    let (namesize, r12) ← parseHex8 r11
    let (check, r13) ← parseHex8 r12
    let nameRegion := namesize + pad4 (110 + namesize)
    if r13.length < nameRegion + filesize + pad4 filesize then none
    else
      some ({ ino := ino, mode := mode, uid := uid, gid := gid, nlink := nlink, mtime := mtime,
              filesize := filesize, devmajor := devmajor, devminor := devminor,
              rdevmajor := rdevmajor, rdevminor := rdevminor, namesize := namesize,
              check := check, name := r13.take (namesize - 1) },
            (r13.drop nameRegion).take filesize,
            r13.drop (nameRegion + filesize + pad4 filesize))
  else none

/-- File-type nibble of a mode value, bits 12-15 (regular files are 8,
directories 4, symlinks 10 in octal 0o170000 terms). -/
def modeType (m : Nat) : Nat := m / 4096 % 16

/-- Modelled from the spec: directories and symlinks are never subject to
content dedup (section 3). -/
def dedupEligible (m : Nat) : Bool := modeType m != 4 && modeType m != 10

/-- Modelled from the spec: the auxiliary content-hash to inode index owned by
the EntryStore (section 3); lookup of a content in it. -/
def lookupHash : List (List Nat × Nat) → List Nat → Option Nat
  | [], _ => none
  | (k, i) :: rest, c => if k = c then some i else lookupHash rest c

/-- Modelled from the spec: the EntryStore, an insertion-ordered path to entry
mapping plus the content index and the store-owned monotonically increasing
inode counter (sections 3 and 9). -/
structure EntryStore where
  entries : List Entry
  counter : Nat
  hashIndex : List (List Nat × Nat)
deriving DecidableEq

def emptyStore : EntryStore := { entries := [], counter := 1, hashIndex := [] }

/-- Set nlink to k on every entry sharing inode i. -/
def setNlinkIfIno (i k : Nat) (e : Entry) : Entry :=
  if e.hdr.ino = i then { e with hdr := { e.hdr with nlink := k } } else e

/-- Modelled from the spec: insertion at a path. Re-inserting an existing path
replaces the entry in place without reordering, otherwise the entry goes at
the end (section 4.2 step 3). -/
def insertEntry : List Entry → Entry → List Entry
  | [], e => [e]
  | x :: xs, e => if x.hdr.name = e.hdr.name then e :: xs else x :: insertEntry xs e

/-- Modelled from the spec: the dedup-aware append (section 4.2). If an
existing dedup-eligible entry has the same content and file type, the new
entry takes that inode with zeroed content and filesize and every sharer's
nlink becomes the new shared count; otherwise the entry gets a fresh inode
from the store counter and, when eligible, registers its content. -/
def addEntry (s : EntryStore) (h : HeaderRecord) (content : List Nat) : EntryStore :=
  let tryDedup : Option Nat :=
    if dedupEligible h.mode then
      match lookupHash s.hashIndex content with
      | some i =>
        match s.entries.find? (fun e => e.hdr.ino == i) with
        | some e0 => if modeType e0.hdr.mode == modeType h.mode then some i else none
        | none => none
      | none => none
    else none
  match tryDedup with
  | some i =>
    let k := s.entries.countP (fun e => e.hdr.ino == i) + 1
    let newE : Entry := { hdr := { h with ino := i, filesize := 0, nlink := k }, content := [] }
    { s with entries := insertEntry (s.entries.map (setNlinkIfIno i k)) newE }
  | none =>
    let newE : Entry := { hdr := { h with ino := s.counter }, content := content }
    { entries := insertEntry s.entries newE,
      counter := s.counter + 1,
      hashIndex :=
        if dedupEligible h.mode then (content, s.counter) :: s.hashIndex else s.hashIndex }

/-- Modelled from the spec: serialization of the stored entries in insertion
order, the bytes produced by bytes of the entry collection inside
CPIOWriter.__bytes__ (writer.py line 47; the collection source is not in the
tree, section 4.3). -/
def archiveBytes (es : List Entry) : List Nat :=
  es.foldl (fun acc e => acc ++ encodeEntry e) []

/-- CPIOWriter.__bytes__ (writer.py lines 45-52): the serialized entries with
the freshly built trailer record appended. -/
def writerBytes (es : List Entry) : List Nat :=
  archiveBytes es ++ encodeEntry trailerEntry

/-- One ingestion step applied by the decode loop. -/
def stepAdd (s : EntryStore) (e : Entry) : EntryStore := addEntry s e.hdr e.content

/-- Folding the dedup-aware append over a list of already decoded entries. -/
def ingestFold (s : EntryStore) (es : List Entry) : EntryStore := es.foldl stepAdd s

/-- Modelled from the spec: the ingestion loop (section 4.2). Decodes entries
one after another, stops discarding the sentinel when the name equals
TRAILER!!! and the file size is zero, and inserts every other record through
the dedup-aware append. Fuel bounds the recursion; ingest supplies enough. -/
def ingestLoop : Nat → EntryStore → List Nat → Option EntryStore
  | 0, _, _ => none
  | fuel + 1, s, bs =>
    match decodeEntry bs with
    | none => none
    | some (h, content, rest) =>
      if h.name = trailerName ∧ h.filesize = 0 then some s
      else ingestLoop fuel (addEntry s h content) rest

/-- Modelled from the spec: ingest(bytes) into a fresh store (section 4.2). -/
def ingest (bs : List Nat) : Option EntryStore :=
  ingestLoop (bs.length + 1) emptyStore bs

/-- Paths of a store in insertion order, the list() query. -/
def listPaths (s : EntryStore) : List (List Nat) := s.entries.map (fun e => e.hdr.name)

/-- Entry lookup by path. -/
def findByName (es : List Entry) (p : List Nat) : Option Entry :=
  es.find? (fun e => e.hdr.name == p)

/-- Whether the entries at two paths carry the same inode number. -/
def sharesInodeEs (es : List Entry) (p q : List Nat) : Bool :=
  match findByName es p, findByName es q with
  | some a, some b => a.hdr.ino == b.hdr.ino
  | _, _ => false

/-- An entry with its inode field cleared, for comparisons up to renumbering. -/
def stripIno (e : Entry) : Entry := { e with hdr := { e.hdr with ino := 0 } }

/-- Entries renumbered with consecutive inodes starting at c, the shape a
fresh ingestion produces. -/
def renumberFrom : Nat → List Entry → List Entry
  | _, [] => []
  | c, e :: es => { hdr := { e.hdr with ino := c }, content := e.content } :: renumberFrom (c + 1) es

/-- Numeric fields small enough for the 8-hex-digit wire format, with namesize
and filesize consistent with the name and content, as construction from
keyword metadata guarantees (sections 3 and 4.1). -/
def FieldsOk (e : Entry) : Prop :=
  e.hdr.ino < 4294967296 ∧ e.hdr.mode < 4294967296 ∧ e.hdr.uid < 4294967296 ∧
    e.hdr.gid < 4294967296 ∧ e.hdr.nlink < 4294967296 ∧ e.hdr.mtime < 4294967296 ∧
    e.hdr.filesize < 4294967296 ∧ e.hdr.devmajor < 4294967296 ∧ e.hdr.devminor < 4294967296 ∧
    e.hdr.rdevmajor < 4294967296 ∧ e.hdr.rdevminor < 4294967296 ∧
    e.hdr.namesize < 4294967296 ∧ e.hdr.check < 4294967296 ∧
    e.hdr.namesize = e.hdr.name.length + 1 ∧ e.hdr.filesize = e.content.length

/-- A store entry the program could have built: consistent fields, byte-valued
name and content, non-null name bytes, and not named like the sentinel. -/
def WFEntry (e : Entry) : Prop :=
  FieldsOk e ∧ e.hdr.name ≠ trailerName ∧
    (∀ b ∈ e.hdr.name, 0 < b ∧ b < 256) ∧ (∀ b ∈ e.content, b < 256)

instance (e : Entry) : Decidable (FieldsOk e) := by
  unfold FieldsOk; exact inferInstance

instance (e : Entry) : Decidable (WFEntry e) := by
  unfold WFEntry; exact inferInstance

/- The CPIOWriter itself, modelled from src/src/pycpio/writer/writer.py. -/

/-- Python lowercasing of one character, ASCII range. -/
def lowerChar (c : Char) : Char :=
  if 65 ≤ c.toNat ∧ c.toNat ≤ 90 then Char.ofNat (c.toNat + 32) else c

/-- Python str.lower as used by CPIOWriter.__init__ (writer.py line 37). -/
def strLower (s : String) : String := ⟨s.data.map lowerChar⟩

/-- The compression argument: Python bool or str. -/
inductive CSetting
  | bool (b : Bool)
  | str (s : String)
deriving DecidableEq

/-- The result of CPIOWriter.compress: the external compressors are opaque, so
the output records which compressor ran with which parameters. -/
inductive CompressOutput
  | raw (data : List Nat)
  | xz (data : List Nat) (check : Nat)
  | zstd (data : List Nat) (level : Int)
deriving DecidableEq

/-- Errors CPIOWriter.compress can raise: UnavailableCompression
(pycpio.errors) for unsupported schemes, and Python's AttributeError from
self.compression.upper() at writer.py line 82 when the scheme reaching the
log line is the boolean True rather than a string. -/
inductive WriterError
  | unavailableCompression (scheme : CSetting)
  | attributeError
deriving DecidableEq

/-- lzma.CHECK_CRC32, the default xz integrity check (writer.py line 1). -/
def CHECK_CRC32 : Nat := 1

/-- CPIOWriter.__init__ lines 34-42: self.compression becomes compression or
False, then a string argument is lowercased, with true and false mapped to the
booleans. -/
def normalizeCompression : CSetting → CSetting
  | .bool b => .bool b
  | .str s =>
    let t := strLower s
    if t = "true" then .bool true
    else if t = "false" then .bool false
    else .str t

/-- CPIOWriter.__init__ line 35: self.compression_level = compression_level or
10, with None and 0 both falsy. -/
def initLevel : Option Int → Int
  | none => 10
  | some v => if v = 0 then 10 else v

/-- CPIOWriter state after __init__ (writer.py lines 18-44). -/
structure CPIOWriter where
  cpio_entries : List Entry
  compression : CSetting
  compression_level : Int
  xz_crc : Nat
deriving DecidableEq

/-- CPIOWriter.__init__: stores the entries and normalizes the compression
scheme and level. -/
def mkWriter (entries : List Entry) (compression : CSetting) (level : Option Int)
    (xzCrc : Nat) : CPIOWriter :=
  { cpio_entries := entries,
    compression := normalizeCompression compression,
    compression_level := initLevel level,
    xz_crc := xzCrc }

/-- Construction without an explicit xz_crc argument, taking the lzma CRC32
default (writer.py line 25). -/
def mkWriterDefault (entries : List Entry) (compression : CSetting)
    (level : Option Int) : CPIOWriter :=
  mkWriter entries compression level CHECK_CRC32

/-- CPIOWriter.compress (writer.py lines 54-86): the xz branch is selected
for the string xz or the boolean True, the zstd branch for the string zstd,
anything else that is not False raises UnavailableCompression, and False
returns the data unchanged at line 68 before any further step. On the xz and
zstd branches the log line at line 82 calls self.compression.upper() before
the compressor runs, which raises AttributeError when the scheme is the
boolean True, so a boolean-True scheme never yields compressed output. -/
def compressData (c : CSetting) (xzCrc : Nat) (level : Int) (data : List Nat) :
    Except WriterError CompressOutput :=
  if c = .str "xz" ∨ c = .bool true then
    match c with
    | .bool _ => .error .attributeError
    | .str _ => .ok (.xz data xzCrc)
  else if c = .str "zstd" then .ok (.zstd data level)
  else if c ≠ .bool false then .error (.unavailableCompression c)
  else .ok (.raw data)

def writerCompress (w : CPIOWriter) (data : List Nat) : Except WriterError CompressOutput :=
  compressData w.compression w.xz_crc w.compression_level data

instance {ε α : Type} [DecidableEq ε] [DecidableEq α] : DecidableEq (Except ε α) := fun a b =>
  match a, b with
  | .ok x, .ok y =>
    match decEq x y with
    | isTrue h => isTrue (h ▸ rfl)
    | isFalse h => isFalse (fun hc => h (Except.ok.inj hc))
  | .error x, .error y =>
    match decEq x y with
    | isTrue h => isTrue (h ▸ rfl)
    | isFalse h => isFalse (fun hc => h (Except.error.inj hc))
  | .ok _, .error _ => isFalse (fun hc => Except.noConfusion hc)
  | .error _, .ok _ => isFalse (fun hc => Except.noConfusion hc)

/-- Observable file-handle actions of CPIOWriter.write, in order. -/
inductive FileEvent
  | fopen
  | fwrite (data : CompressOutput)
  | fflush
  | fsyncEv
  | warnNotSynced
  | fclose
deriving DecidableEq

/-- CPIOWriter.write (writer.py lines 88-101): serialize, compress, and only
then open the output file; write everything, then flush and fsync when
safe_write is set, otherwise log a warning; the scoped open closes the handle
in every case. A compression failure propagates before any file event. -/
def writerWrite (w : CPIOWriter) (safe_write : Bool) : Except WriterError (List FileEvent) :=
  match writerCompress w (writerBytes w.cpio_entries) with
  | .error e => .error e
  | .ok d =>
    .ok ([.fopen, .fwrite d] ++ (if safe_write then [.fflush, .fsyncEv] else [.warnNotSynced]) ++
      [.fclose])

/-- Mode of a regular file rw-r--r--, as the filesystem walker would supply. -/
def regMode : Nat := 33188

/-- A regular-file header as the append path builds it for a path and content
size, before the store assigns the inode. -/
def mkRegHeader (p : List Nat) (fsize : Nat) : HeaderRecord :=
  { ino := 0, mode := regMode, uid := 0, gid := 0, nlink := 1, mtime := 0, filesize := fsize,
    devmajor := 0, devminor := 0, rdevmajor := 0, rdevminor := 0,
    namesize := p.length + 1, check := 0, name := p }

/-- Append regular files with the given paths, all carrying content c. -/
def appendAll (paths : List (List Nat)) (c : List Nat) : EntryStore :=
  paths.foldl (fun s p => addEntry s (mkRegHeader p c.length) c) emptyStore

/-- Total name-related overhead of the claimed dedup bound: per entry the null
terminator plus the alignment after the name, plus the trailer name region
beyond its fixed header, plus the content alignment. -/
def namePaddingOf (paths : List (List Nat)) (c : List Nat) : Nat :=
  (paths.map (fun p => 1 + pad4 (110 + (p.length + 1)))).sum + 14 + pad4 c.length

/-- Size-relevant projection of an entry: name, namesize, content length. -/
def sigOf (e : Entry) : List Nat × Nat × Nat := (e.hdr.name, e.hdr.namesize, e.content.length)

/-- Serialized frame size as a function of the size projection. -/
def fsig (t : List Nat × Nat × Nat) : Nat :=
  111 + t.1.length + pad4 (110 + t.2.1) + t.2.2 + pad4 t.2.2

/- Helper lemmas on serialization shape. -/

theorem archive_foldl_acc (es : List Entry) :
    ∀ acc : List Nat,
      es.foldl (fun a e => a ++ encodeEntry e) acc = acc ++ (es.map encodeEntry).flatten := by
  induction es with
  | nil => intro acc; simp
  | cons e t ih => intro acc; simp [List.foldl_cons, ih]

theorem archiveBytes_eq_flatten (es : List Entry) :
    archiveBytes es = (es.map encodeEntry).flatten := by
  have := archive_foldl_acc es []
  simpa [archiveBytes] using this

/-- Claim C5: serialization concatenates each entry's encoded header followed
by its padded content, in store order, and appends the encoded trailer record
after the last entry and nowhere else. -/
theorem C5_serialize_concat (es : List Entry) :
    writerBytes es = (es.map encodeEntry).flatten ++ encodeEntry trailerEntry ∧
    ∀ e : Entry,
      encodeEntry e = encodeHeader e.hdr ++ (e.content ++ zeros (pad4 e.content.length)) := by
  constructor
  · rw [writerBytes, archiveBytes_eq_flatten]
  · intro e
    simp [encodeEntry, List.append_assoc]

/-- Claim C6, counterexample: the trailer record does not have all of its
numeric header fields zero, because namesize is computed from the name
TRAILER!!! and equals 11. -/
theorem C6_counterexample :
    trailerEntry.hdr.namesize = 11 ∧ ¬ trailerEntry.hdr.namesize = 0 := by decide

/-- Claim C6, amended: the trailer is built only at write time and appended
after the serialized store entries; its name is TRAILER!!!, its nlink is 1,
its namesize is 11 (derived from the name with its null terminator), and
every other numeric field is zero. -/
theorem C6_trailer_amended :
    trailerEntry.hdr.name = trailerName ∧ trailerEntry.hdr.nlink = 1 ∧
    trailerEntry.hdr.namesize = 11 ∧ trailerEntry.hdr.ino = 0 ∧
    trailerEntry.hdr.mode = 0 ∧ trailerEntry.hdr.uid = 0 ∧ trailerEntry.hdr.gid = 0 ∧
    trailerEntry.hdr.mtime = 0 ∧ trailerEntry.hdr.filesize = 0 ∧
    trailerEntry.hdr.devmajor = 0 ∧ trailerEntry.hdr.devminor = 0 ∧
    trailerEntry.hdr.rdevmajor = 0 ∧ trailerEntry.hdr.rdevminor = 0 ∧
    trailerEntry.hdr.check = 0 ∧
    (∀ es : List Entry, writerBytes es = archiveBytes es ++ encodeEntry trailerEntry) :=
  ⟨rfl, rfl, rfl, rfl, rfl, rfl, rfl, rfl, rfl, rfl, rfl, rfl, rfl, rfl, fun _ => rfl⟩

/-- Claim C4: in the spec model of the dedup-aware append, inserting the same
path with the same content twice leaves exactly one entry mapped to that path.
The repository's own test marks this behavior as an expected failure, so the
code diverges from the spec here; this theorem records the spec-side behavior
the claim describes. -/
theorem C4_spec_model_single_entry :
    (addEntry (addEntry emptyStore (mkRegHeader [97] 1) [120])
        (mkRegHeader [97] 1) [120]).entries.map (fun e => e.hdr.name) = [[97]] := by
  decide

/-- Claim C2: an unsupported compression scheme makes write fail with the
unavailable-compression error before any file event happens, so no partial
output file is produced; the error result carries no file actions at all. -/
theorem C2_unsupported_compression_no_write (entries : List Entry) (c : CSetting)
    (level : Option Int) (crc : Nat) (safe : Bool)
    (h1 : (mkWriter entries c level crc).compression ≠ .bool true)
    (h2 : (mkWriter entries c level crc).compression ≠ .bool false)
    (h3 : (mkWriter entries c level crc).compression ≠ .str "xz")
    (h4 : (mkWriter entries c level crc).compression ≠ .str "zstd") :
    writerWrite (mkWriter entries c level crc) safe =
      .error (.unavailableCompression (mkWriter entries c level crc).compression) := by
  unfold writerWrite writerCompress compressData
  simp [h1, h2, h3, h4]

theorem C2_witness :
    writerWrite (mkWriter [] (.str "gzip") none 1) true =
      .error (.unavailableCompression (mkWriter [] (.str "gzip") none 1).compression) :=
  C2_unsupported_compression_no_write [] (.str "gzip") none 1 true
    (by decide) (by decide) (by decide) (by decide)

/-- Claim C7: when compression succeeds, write with safe_write set flushes and
fsyncs after writing and before the scoped close; with safe_write false the
write still completes and closes, and only a warning event replaces the
durability steps. -/
theorem C7_write_durability (w : CPIOWriter) (d : CompressOutput)
    (h : writerCompress w (writerBytes w.cpio_entries) = .ok d) :
    writerWrite w true = .ok [.fopen, .fwrite d, .fflush, .fsyncEv, .fclose] ∧
    writerWrite w false = .ok [.fopen, .fwrite d, .warnNotSynced, .fclose] := by
  unfold writerWrite
  rw [h]
  exact ⟨rfl, rfl⟩

theorem C7_witness :
    writerWrite (mkWriter [] (.bool false) none 1) true =
      .ok [.fopen, .fwrite (.raw (writerBytes [])), .fflush, .fsyncEv, .fclose] ∧
    writerWrite (mkWriter [] (.bool false) none 1) false =
      .ok [.fopen, .fwrite (.raw (writerBytes [])), .warnNotSynced, .fclose] :=
  C7_write_durability (mkWriter [] (.bool false) none 1) (.raw (writerBytes [])) rfl

/-- Claim C8: compress supports exactly the schemes none, xz and zstd: False
returns the input unchanged, the string xz compresses with the configurable
integrity check whose constructor default is CHECK_CRC32, the string zstd
compresses at the writer's numeric level, and no other scheme value ever
returns output (other strings raise UnavailableCompression; the boolean True
enters the xz branch but raises AttributeError at the log line). -/
theorem C8_compress_schemes (data : List Nat) (crc : Nat) (level : Int) :
    compressData (.bool false) crc level data = .ok (.raw data) ∧
    compressData (.str "xz") crc level data = .ok (.xz data crc) ∧
    compressData (.str "zstd") crc level data = .ok (.zstd data level) ∧
    (∀ (entries : List Entry) (lv : Option Int),
      writerCompress (mkWriterDefault entries (.str "xz") lv) data =
        .ok (.xz data CHECK_CRC32)) ∧
    (∀ c : CSetting, c ≠ .bool false → c ≠ .bool true → c ≠ .str "xz" → c ≠ .str "zstd" →
      compressData c crc level data = .error (.unavailableCompression c)) ∧
    (∀ (c : CSetting) (out : CompressOutput),
      compressData c crc level data = .ok out →
      c = .bool false ∨ c = .str "xz" ∨ c = .str "zstd") := by
  refine ⟨rfl, rfl, rfl, fun entries lv => rfl, fun c h1 h2 h3 h4 => ?_,
    fun c out hok => ?_⟩
  · unfold compressData
    simp [h1, h2, h3, h4]
  · by_cases h1 : c = .bool false
    · exact Or.inl h1
    by_cases h2 : c = .str "xz"
    · exact Or.inr (Or.inl h2)
    by_cases h3 : c = .str "zstd"
    · exact Or.inr (Or.inr h3)
    exfalso
    unfold compressData at hok
    by_cases h4 : c = .bool true
    · subst h4
      simp at hok
    · have hcond : ¬ (c = .str "xz" ∨ c = .bool true) := by
        intro hor
        rcases hor with hx | ht
        · exact h2 hx
        · exact h4 ht
      rw [if_neg hcond, if_neg h3, if_pos h1] at hok
      exact Except.noConfusion hok

theorem C8_witness :
    (compressData (.str "gzip") 1 10 [] = .error (.unavailableCompression (.str "gzip"))) ∧
    ((.bool false : CSetting) = .bool false ∨ (.bool false : CSetting) = .str "xz" ∨
      (.bool false : CSetting) = .str "zstd") :=
  ⟨(C8_compress_schemes [] 1 10).2.2.2.2.1 (.str "gzip")
      (by decide) (by decide) (by decide) (by decide),
   (C8_compress_schemes [] 1 10).2.2.2.2.2 (.bool false) (.raw []) rfl⟩

/-- Claim C9: the constructor does normalize a boolean True or any string
lowercasing to true to the boolean True, and compress routes that value into
the xz branch rather than the unsupported-scheme branch, with strings
lowercasing to false meaning no compression; but the code then crashes with
AttributeError at writer.py line 82 (True.upper() in the log line) before
compressing, so compress never returns xz output for these values. This
theorem evaluates the model at the failing inputs. -/
theorem C9_true_like_crash :
    (mkWriter [] (.str "TrUe") none 1).compression = .bool true ∧
    (mkWriter [] (.bool true) none 1).compression = .bool true ∧
    writerCompress (mkWriter [] (.str "TrUe") none 1) [] = .error .attributeError ∧
    writerCompress (mkWriter [] (.bool true) none 1) [] = .error .attributeError ∧
    writerCompress (mkWriter [] (.str "TrUe") none 1) [] ≠
      .error (.unavailableCompression (.bool true)) ∧
    writerCompress (mkWriter [] (.str "FaLsE") none 1) [] = .ok (.raw []) := by
  refine ⟨?_, ?_, ?_, ?_, ?_, ?_⟩ <;> decide

/-- Claim C10: a falsy compression_level argument (None or 0) is replaced by
the default 10 in the constructor, and the stored level is never 0. -/
theorem C10_level_default (entries : List Entry) (c : CSetting) (crc : Nat)
    (level : Option Int) :
    ((level = none ∨ level = some 0) → (mkWriter entries c level crc).compression_level = 10) ∧
    (mkWriter entries c level crc).compression_level ≠ 0 := by
  constructor
  · rintro (rfl | rfl) <;> rfl
  · show initLevel level ≠ 0
    cases level with
    | none => decide
    | some v =>
      have hiv : initLevel (some v) = if v = 0 then 10 else v := rfl
      rw [hiv]
      split_ifs with h
      · decide
      · exact h

theorem C10_witness :
    (mkWriter [] (.bool false) none 1).compression_level = 10 ∧
    (mkWriter [] (.bool false) (some 0) 1).compression_level ≠ 0 :=
  ⟨(C10_level_default [] (.bool false) 1 none).1 (Or.inl rfl),
   (C10_level_default [] (.bool false) 1 (some 0)).2⟩

set_option maxRecDepth 40000

/- Helper lemmas on sizes and on the two branches of addEntry. -/

@[simp]
theorem zeros_length (n : Nat) : (zeros n).length = n := by
  induction n with
  | zero => rfl
  | succ k ih => simp [zeros, ih]

@[simp]
theorem pad4_zero : pad4 0 = 0 := rfl

theorem encodeEntry_length (e : Entry) :
    (encodeEntry e).length =
      111 + e.hdr.name.length + pad4 (110 + e.hdr.namesize) +
        e.content.length + pad4 e.content.length := by
  simp [encodeEntry, encodeHeader, magic, toHex8, List.length_append]
  omega

theorem encodeEntry_length_sig (e : Entry) : (encodeEntry e).length = fsig (sigOf e) := by
  rw [encodeEntry_length]
  simp [fsig, sigOf]

theorem archiveBytes_length (es : List Entry) :
    (archiveBytes es).length = ((es.map sigOf).map fsig).sum := by
  rw [archiveBytes_eq_flatten]
  induction es with
  | nil => rfl
  | cons e t ih =>
    simp [List.map_cons, List.length_append, List.sum_cons, ih, encodeEntry_length_sig]

theorem trailer_length : (encodeEntry trailerEntry).length = 124 := by decide

theorem writerBytes_length (es : List Entry) :
    (writerBytes es).length = ((es.map sigOf).map fsig).sum + 124 := by
  rw [writerBytes, List.length_append, archiveBytes_length, trailer_length]

theorem insertEntry_append (l : List Entry) (e : Entry)
    (h : ∀ x ∈ l, x.hdr.name ≠ e.hdr.name) : insertEntry l e = l ++ [e] := by
  induction l with
  | nil => rfl
  | cons x xs ih =>
    rw [insertEntry, if_neg (h x (List.mem_cons_self x xs))]
    rw [ih (fun y hy => h y (List.mem_cons_of_mem x hy))]
    rfl

theorem setNlink_name (i k : Nat) (e : Entry) :
    (setNlinkIfIno i k e).hdr.name = e.hdr.name := by
  unfold setNlinkIfIno; split <;> rfl

theorem setNlink_ino (i k : Nat) (e : Entry) :
    (setNlinkIfIno i k e).hdr.ino = e.hdr.ino := by
  unfold setNlinkIfIno; split <;> rfl

theorem setNlink_mode (i k : Nat) (e : Entry) :
    (setNlinkIfIno i k e).hdr.mode = e.hdr.mode := by
  unfold setNlinkIfIno; split <;> rfl

theorem sig_setNlink (i k : Nat) (e : Entry) : sigOf (setNlinkIfIno i k e) = sigOf e := by
  unfold setNlinkIfIno; split <;> rfl

theorem map_sig_setNlink (l : List Entry) (i k : Nat) :
    (l.map (setNlinkIfIno i k)).map sigOf = l.map sigOf := by
  induction l with
  | nil => rfl
  | cons x xs ih => simp [sig_setNlink, ih]

/-- The entry the dedup branch of addEntry inserts. -/
def dedupedEntry (h : HeaderRecord) (i k : Nat) : Entry :=
  { hdr := { h with ino := i, filesize := 0, nlink := k }, content := [] }

theorem dedupedEntry_name (h : HeaderRecord) (i k : Nat) :
    (dedupedEntry h i k).hdr.name = h.name := rfl

theorem dedupedEntry_ino (h : HeaderRecord) (i k : Nat) :
    (dedupedEntry h i k).hdr.ino = i := rfl

theorem dedupedEntry_mode (h : HeaderRecord) (i k : Nat) :
    (dedupedEntry h i k).hdr.mode = h.mode := rfl

theorem sig_dedupedEntry (h : HeaderRecord) (i k : Nat) :
    sigOf (dedupedEntry h i k) = (h.name, h.namesize, 0) := rfl

theorem mkRegHeader_mode (p : List Nat) (f : Nat) : (mkRegHeader p f).mode = regMode := rfl

theorem mkRegHeader_name (p : List Nat) (f : Nat) : (mkRegHeader p f).name = p := rfl

theorem mkRegHeader_namesize (p : List Nat) (f : Nat) :
    (mkRegHeader p f).namesize = p.length + 1 := rfl

theorem modeType_regMode : modeType regMode = 8 := rfl

theorem dedupEligible_regMode : dedupEligible regMode = true := rfl

/-- The dedup branch of addEntry, fully characterized. -/
theorem addEntry_dedup (s : EntryStore) (h : HeaderRecord) (content : List Nat) (i k : Nat)
    (hk : k = s.entries.countP (fun e => e.hdr.ino == i) + 1)
    (helig : dedupEligible h.mode = true)
    (hlook : lookupHash s.hashIndex content = some i)
    (e0 : Entry) (hfind : s.entries.find? (fun e => e.hdr.ino == i) = some e0)
    (htype : modeType e0.hdr.mode = modeType h.mode) :
    addEntry s h content =
      { s with entries :=
          (insertEntry (s.entries.map (setNlinkIfIno i k)) (dedupedEntry h i k)) } := by
  subst hk
  unfold addEntry dedupedEntry
  simp [helig, hlook, hfind, htype]

/-- The entry the fresh branch of addEntry inserts. -/
def freshEntry (h : HeaderRecord) (i : Nat) (content : List Nat) : Entry :=
  { hdr := { h with ino := i }, content := content }

theorem freshEntry_name (h : HeaderRecord) (i : Nat) (content : List Nat) :
    (freshEntry h i content).hdr.name = h.name := rfl

theorem freshEntry_ino (h : HeaderRecord) (i : Nat) (content : List Nat) :
    (freshEntry h i content).hdr.ino = i := rfl

theorem freshEntry_mode (h : HeaderRecord) (i : Nat) (content : List Nat) :
    (freshEntry h i content).hdr.mode = h.mode := rfl

theorem freshEntry_sig (h : HeaderRecord) (i : Nat) (content : List Nat) :
    sigOf (freshEntry h i content) = (h.name, h.namesize, content.length) := rfl

/-- The fresh branch of addEntry, fully characterized. -/
theorem addEntry_fresh (s : EntryStore) (h : HeaderRecord) (content : List Nat)
    (hmiss : dedupEligible h.mode = true → lookupHash s.hashIndex content = none) :
    addEntry s h content =
      { entries := insertEntry s.entries (freshEntry h s.counter content),
        counter := s.counter + 1,
        hashIndex :=
          if dedupEligible h.mode then (content, s.counter) :: s.hashIndex
          else s.hashIndex } := by
  unfold addEntry freshEntry
  cases helig : dedupEligible h.mode with
  | false => simp [helig]
  | true => simp [helig, hmiss helig]

theorem sum_fsig_zero (ps : List (List Nat)) :
    ((ps.map (fun p => ((p, p.length + 1, 0) : List Nat × Nat × Nat))).map fsig).sum
      = ps.length * 110 + (ps.map List.length).sum
        + (ps.map (fun p => 1 + pad4 (110 + (p.length + 1)))).sum := by
  induction ps with
  | nil => rfl
  | cons p t ih =>
    simp only [List.map_cons, List.sum_cons, List.length_cons]
    rw [ih]
    have hf : fsig (p, p.length + 1, 0) =
        111 + p.length + pad4 (110 + (p.length + 1)) + 0 + pad4 0 := rfl
    rw [hf, pad4_zero]
    omega

/-- Invariant run of the dedup loop: once one regular entry holding content c
is in the store with inode 1 and the index maps c to 1, every further append
of a distinct path with content c takes the dedup branch and adds one
zero-content entry. -/
theorem C3_invariant (c : List Nat) (ps : List (List Nat)) :
    ∀ s : EntryStore,
      s.hashIndex = [(c, 1)] →
      (∀ e ∈ s.entries, e.hdr.ino = 1 ∧ modeType e.hdr.mode = 8) →
      s.entries ≠ [] →
      (∀ p ∈ ps, ∀ e ∈ s.entries, e.hdr.name ≠ p) →
      List.Pairwise (fun a b => a ≠ b) ps →
      ((ps.foldl (fun s p => addEntry s (mkRegHeader p c.length) c) s).entries.map sigOf
        = s.entries.map sigOf ++ ps.map (fun p => (p, p.length + 1, 0))) := by
  induction ps with
  | nil =>
    intro s h1 h2 h3 h4 h5
    simp
  | cons p ps ih =>
    intro s h1 h2 h3 h4 h5
    obtain ⟨x, xs, hx⟩ := List.exists_cons_of_ne_nil h3
    have hxmem : x ∈ s.entries := by rw [hx]; exact List.mem_cons_self x xs
    have hxino : x.hdr.ino = 1 := (h2 x hxmem).1
    have hxmode : modeType x.hdr.mode = 8 := (h2 x hxmem).2
    have helig : dedupEligible (mkRegHeader p c.length).mode = true := by
      rw [mkRegHeader_mode]
      exact dedupEligible_regMode
    have hlook : lookupHash s.hashIndex c = some 1 := by rw [h1]; simp [lookupHash]
    have hfind : s.entries.find? (fun e => e.hdr.ino == 1) = some x := by
      rw [hx]
      have hc : (fun e : Entry => e.hdr.ino == 1) x = true := by simp [hxino]
      exact List.find?_cons_of_pos _ hc
    have htype : modeType x.hdr.mode = modeType (mkRegHeader p c.length).mode := by
      rw [hxmode, mkRegHeader_mode, modeType_regMode]
    rw [List.foldl_cons]
    rw [addEntry_dedup s (mkRegHeader p c.length) c 1
      (s.entries.countP (fun e => e.hdr.ino == 1) + 1) rfl helig hlook x hfind htype]
    set k := s.entries.countP (fun e => e.hdr.ino == 1) + 1 with hkdef
    have hnames : ∀ y ∈ s.entries.map (setNlinkIfIno 1 k),
        y.hdr.name ≠ (dedupedEntry (mkRegHeader p c.length) 1 k).hdr.name := by
      intro y hy
      obtain ⟨z, hz, rfl⟩ := List.mem_map.mp hy
      rw [setNlink_name, dedupedEntry_name, mkRegHeader_name]
      exact h4 p (List.mem_cons_self _ _) z hz
    rw [insertEntry_append _ _ hnames]
    have ih2 := ih
      { s with entries :=
          s.entries.map (setNlinkIfIno 1 k) ++ [dedupedEntry (mkRegHeader p c.length) 1 k] }
      h1
      (by
        intro e he
        rcases List.mem_append.mp he with hm | hm
        · obtain ⟨z, hz, rfl⟩ := List.mem_map.mp hm
          exact ⟨by rw [setNlink_ino]; exact (h2 z hz).1,
                 by rw [setNlink_mode]; exact (h2 z hz).2⟩
        · have he2 : e = dedupedEntry (mkRegHeader p c.length) 1 k := by simpa using hm
          subst he2
          refine ⟨dedupedEntry_ino _ _ _, ?_⟩
          rw [dedupedEntry_mode, mkRegHeader_mode, modeType_regMode])
      (by simp)
      (by
        intro q hq e he
        rcases List.mem_append.mp he with hm | hm
        · obtain ⟨z, hz, rfl⟩ := List.mem_map.mp hm
          rw [setNlink_name]
          exact h4 q (List.mem_cons_of_mem p hq) z hz
        · have he2 : e = dedupedEntry (mkRegHeader p c.length) 1 k := by simpa using hm
          subst he2
          rw [dedupedEntry_name, mkRegHeader_name]
          exact (List.pairwise_cons.mp h5).1 q hq)
      (List.pairwise_cons.mp h5).2
    rw [ih2]
    have hsig : sigOf (dedupedEntry (mkRegHeader p c.length) 1 k) = (p, p.length + 1, 0) := by
      rw [sig_dedupedEntry, mkRegHeader_name, mkRegHeader_namesize]
    simp [List.map_append, map_sig_setNlink, sig_setNlink, hsig, List.append_assoc]

/-- Claim C3: appending N entries with identical content and pairwise distinct
paths yields an archive no larger than N times the fixed header size plus the
total (= N times average) name length, plus one further fixed header size for
the trailer, plus the content size stored once, plus the name-padding
overhead; the content bytes appear exactly once. -/
theorem C3_dedup_size_bound (paths : List (List Nat)) (c : List Nat)
    (hdist : List.Pairwise (fun a b => a ≠ b) paths) :
    (writerBytes (appendAll paths c).entries).length ≤
      paths.length * 110 + (paths.map List.length).sum + 110 + c.length +
        namePaddingOf paths c := by
  cases paths with
  | nil =>
    have h0 : appendAll [] c = emptyStore := rfl
    rw [h0]
    have h1 : (writerBytes emptyStore.entries).length = 124 := by decide
    rw [h1]
    simp only [namePaddingOf, List.map_nil, List.sum_nil, List.length_nil]
    omega
  | cons p0 ps =>
    have helig : dedupEligible (mkRegHeader p0 c.length).mode = true := by
      rw [mkRegHeader_mode]
      exact dedupEligible_regMode
    have hinit : addEntry emptyStore (mkRegHeader p0 c.length) c =
        { entries := [freshEntry (mkRegHeader p0 c.length) 1 c],
          counter := 2, hashIndex := [(c, 1)] } := by
      rw [addEntry_fresh emptyStore (mkRegHeader p0 c.length) c (fun _ => rfl)]
      simp [emptyStore, insertEntry, helig]
    have hpair := List.pairwise_cons.mp hdist
    have hmap := C3_invariant c ps
      { entries := [freshEntry (mkRegHeader p0 c.length) 1 c],
        counter := 2, hashIndex := [(c, 1)] }
      rfl
      (by
        intro e he
        have he2 : e = freshEntry (mkRegHeader p0 c.length) 1 c := by simpa using he
        subst he2
        refine ⟨freshEntry_ino _ _ _, ?_⟩
        rw [freshEntry_mode, mkRegHeader_mode, modeType_regMode])
      (by simp)
      (by
        intro q hq e he
        have he2 : e = freshEntry (mkRegHeader p0 c.length) 1 c := by simpa using he
        subst he2
        rw [freshEntry_name, mkRegHeader_name]
        exact hpair.1 q hq)
      hpair.2
    have hfold : appendAll (p0 :: ps) c =
        ps.foldl (fun s p => addEntry s (mkRegHeader p c.length) c)
          { entries := [freshEntry (mkRegHeader p0 c.length) 1 c],
            counter := 2, hashIndex := [(c, 1)] } := by
      show (p0 :: ps).foldl (fun s p => addEntry s (mkRegHeader p c.length) c) emptyStore = _
      rw [List.foldl_cons, hinit]
    rw [hfold, writerBytes_length, hmap]
    have hsig1 : sigOf (freshEntry (mkRegHeader p0 c.length) 1 c) =
        (p0, p0.length + 1, c.length) := by
      rw [freshEntry_sig, mkRegHeader_name, mkRegHeader_namesize]
    simp only [List.map_cons, List.map_nil, hsig1, List.cons_append, List.nil_append,
      List.sum_cons, List.map_append, List.sum_append]
    rw [sum_fsig_zero]
    have hf0 : fsig (p0, p0.length + 1, c.length) =
        111 + p0.length + pad4 (110 + (p0.length + 1)) + c.length + pad4 c.length := rfl
    rw [hf0]
    simp only [namePaddingOf, List.length_cons, List.map_cons, List.sum_cons]
    omega

theorem C3_witness :
    List.Pairwise (fun a b => a ≠ b) [[97], [98]] ∧
    (writerBytes (appendAll [[97], [98]] [116, 101, 115, 116]).entries).length ≤
      ([[97], [98]] : List (List Nat)).length * 110 +
        (([[97], [98]] : List (List Nat)).map List.length).sum + 110 +
        ([116, 101, 115, 116] : List Nat).length +
        namePaddingOf [[97], [98]] [116, 101, 115, 116] :=
  ⟨by decide, C3_dedup_size_bound [[97], [98]] [116, 101, 115, 116] (by decide)⟩

/- The header codec round trip, toward the ingest-serialize round trip. -/

theorem hexVal_hexDigit (d : Nat) (h : d < 16) : hexVal (hexDigit d) = some d := by
  unfold hexVal hexDigit
  split_ifs with h1 h2 h3 h4 <;> simp_all <;> omega

theorem parseHex8_toHex8 (n : Nat) (rest : List Nat) (h : n < 4294967296) :
    parseHex8 (toHex8 n ++ rest) = some (n, rest) := by
  have hd : ∀ m : Nat, m % 16 < 16 := fun m => Nat.mod_lt _ (by omega)
  simp only [toHex8, List.cons_append, List.nil_append, parseHex8,
    hexVal_hexDigit _ (hd _), Option.some_bind']
  refine congrArg (fun m => some (m, rest)) ?_
  omega

theorem take6_magic_append (l : List Nat) : (magic ++ l).take 6 = magic := rfl

theorem drop6_magic_append (l : List Nat) : (magic ++ l).drop 6 = l := rfl

set_option maxHeartbeats 1000000 in
/-- Decoding an encoded entry frame at the head of a stream returns exactly the
entry's header record, its content, and the unconsumed rest. -/
theorem decodeEntry_encodeEntry (e : Entry) (tail : List Nat) (hok : FieldsOk e) :
    decodeEntry (encodeEntry e ++ tail) = some (e.hdr, e.content, tail) := by
  obtain ⟨h1, h2, h3, h4, h5, h6, h7, h8, h9, h10, h11, h12, h13, hns, hfs⟩ := hok
  have hshape : encodeEntry e ++ tail =
      magic ++ (toHex8 e.hdr.ino ++ (toHex8 e.hdr.mode ++ (toHex8 e.hdr.uid ++
        (toHex8 e.hdr.gid ++ (toHex8 e.hdr.nlink ++ (toHex8 e.hdr.mtime ++
        (toHex8 e.hdr.filesize ++ (toHex8 e.hdr.devmajor ++ (toHex8 e.hdr.devminor ++
        (toHex8 e.hdr.rdevmajor ++ (toHex8 e.hdr.rdevminor ++ (toHex8 e.hdr.namesize ++
        (toHex8 e.hdr.check ++ (e.hdr.name ++ ([0] ++ (zeros (pad4 (110 + e.hdr.namesize)) ++
        (e.content ++ (zeros (pad4 e.content.length) ++ tail)))))))))))))))))) := by
    simp [encodeEntry, encodeHeader, List.append_assoc]
  rw [hshape]
  unfold decodeEntry
  rw [take6_magic_append, drop6_magic_append, if_pos rfl]
  rw [parseHex8_toHex8 _ _ h1]
  rw [Option.bind_eq_bind]
  rw [Option.some_bind]
  dsimp only
  rw [parseHex8_toHex8 _ _ h2]
  rw [Option.some_bind]
  dsimp only
  rw [parseHex8_toHex8 _ _ h3]
  rw [Option.some_bind]
  dsimp only
  rw [parseHex8_toHex8 _ _ h4]
  rw [Option.some_bind]
  dsimp only
  rw [parseHex8_toHex8 _ _ h5]
  rw [Option.some_bind]
  dsimp only
  rw [parseHex8_toHex8 _ _ h6]
  rw [Option.some_bind]
  dsimp only
  rw [parseHex8_toHex8 _ _ h7]
  rw [Option.some_bind]
  dsimp only
  rw [parseHex8_toHex8 _ _ h8]
  rw [Option.some_bind]
  dsimp only
  rw [parseHex8_toHex8 _ _ h9]
  rw [Option.some_bind]
  dsimp only
  rw [parseHex8_toHex8 _ _ h10]
  rw [Option.some_bind]
  dsimp only
  rw [parseHex8_toHex8 _ _ h11]
  rw [Option.some_bind]
  dsimp only
  rw [parseHex8_toHex8 _ _ h12]
  rw [Option.some_bind]
  dsimp only
  rw [parseHex8_toHex8 _ _ h13]
  rw [Option.some_bind]
  dsimp only
  have hcond : ¬ ((e.hdr.name ++ ([0] ++ (zeros (pad4 (110 + e.hdr.namesize)) ++
      (e.content ++ (zeros (pad4 e.content.length) ++ tail))))).length <
        e.hdr.namesize + pad4 (110 + e.hdr.namesize) + e.hdr.filesize + pad4 e.hdr.filesize) := by
    simp only [List.length_append, zeros_length, List.length_cons, List.length_nil, hns, hfs]
    omega
  have hname : List.take (e.hdr.namesize - 1)
      (e.hdr.name ++ ([0] ++ (zeros (pad4 (110 + e.hdr.namesize)) ++
        (e.content ++ (zeros (pad4 e.content.length) ++ tail))))) = e.hdr.name := by
    rw [hns, Nat.add_sub_cancel]
    exact List.take_left _ _
  have hA : (e.hdr.name ++ [0] ++ zeros (pad4 (110 + e.hdr.namesize))).length
      = e.hdr.namesize + pad4 (110 + e.hdr.namesize) := by
    simp only [List.length_append, zeros_length, List.length_cons, List.length_nil, hns]
  have hcontent : List.take e.hdr.filesize
      (List.drop (e.hdr.namesize + pad4 (110 + e.hdr.namesize))
        (e.hdr.name ++ ([0] ++ (zeros (pad4 (110 + e.hdr.namesize)) ++
          (e.content ++ (zeros (pad4 e.content.length) ++ tail)))))) = e.content := by
    have hre : e.hdr.name ++ ([0] ++ (zeros (pad4 (110 + e.hdr.namesize)) ++
        (e.content ++ (zeros (pad4 e.content.length) ++ tail))))
        = (e.hdr.name ++ [0] ++ zeros (pad4 (110 + e.hdr.namesize))) ++
          (e.content ++ (zeros (pad4 e.content.length) ++ tail)) := by
      simp [List.append_assoc]
    rw [hre, List.drop_left' hA, hfs]
    exact List.take_left _ _
  have hB : (e.hdr.name ++ [0] ++ zeros (pad4 (110 + e.hdr.namesize)) ++ e.content ++
      zeros (pad4 e.content.length)).length
      = e.hdr.namesize + pad4 (110 + e.hdr.namesize) + e.hdr.filesize + pad4 e.hdr.filesize := by
    simp only [List.length_append, zeros_length, List.length_cons, List.length_nil, hns, hfs]
  have hrest : List.drop
      (e.hdr.namesize + pad4 (110 + e.hdr.namesize) + e.hdr.filesize + pad4 e.hdr.filesize)
      (e.hdr.name ++ ([0] ++ (zeros (pad4 (110 + e.hdr.namesize)) ++
        (e.content ++ (zeros (pad4 e.content.length) ++ tail))))) = tail := by
    have hre2 : e.hdr.name ++ ([0] ++ (zeros (pad4 (110 + e.hdr.namesize)) ++
        (e.content ++ (zeros (pad4 e.content.length) ++ tail))))
        = (e.hdr.name ++ [0] ++ zeros (pad4 (110 + e.hdr.namesize)) ++ e.content ++
          zeros (pad4 e.content.length)) ++ tail := by
      simp [List.append_assoc]
    rw [hre2, List.drop_left' hB]
  rw [if_neg hcond, hname, hcontent, hrest]

/- The ingest-serialize round trip, toward claim C1. -/

theorem trailerEntry_name : trailerEntry.hdr.name = trailerName := rfl

theorem trailerEntry_filesize : trailerEntry.hdr.filesize = 0 := rfl

theorem fieldsOk_trailer : FieldsOk trailerEntry := by decide

/-- The decode loop over serialized frames followed by the trailer consumes
exactly the frames, inserting each decoded record through the dedup-aware
append, and stops discarding the sentinel. -/
theorem ingestLoop_encoded (es : List Entry) :
    ∀ (fuel : Nat) (s : EntryStore),
      (∀ e ∈ es, FieldsOk e ∧ e.hdr.name ≠ trailerName) →
      es.length < fuel →
      ingestLoop fuel s ((es.map encodeEntry).flatten ++ encodeEntry trailerEntry)
        = some (ingestFold s es) := by
  induction es with
  | nil =>
    intro fuel s hwf hfuel
    match fuel, hfuel with
    | f + 1, _ =>
      simp only [List.map_nil, List.flatten_nil, List.nil_append]
      rw [show encodeEntry trailerEntry = encodeEntry trailerEntry ++ []
        from (List.append_nil _).symm]
      simp only [ingestLoop]
      rw [decodeEntry_encodeEntry trailerEntry [] fieldsOk_trailer]
      dsimp only
      rw [if_pos (And.intro trailerEntry_name trailerEntry_filesize)]
      rfl
  | cons e es ih =>
    intro fuel s hwf hfuel
    match fuel, hfuel with
    | f + 1, hf =>
      simp only [List.map_cons, List.flatten_cons, List.append_assoc]
      simp only [ingestLoop]
      rw [decodeEntry_encodeEntry e _ (hwf e (List.mem_cons_self e es)).1]
      dsimp only
      rw [if_neg (fun hcontra => (hwf e (List.mem_cons_self e es)).2 hcontra.1)]
      have hlen : es.length < f := by
        have := List.length_cons e es ▸ hf
        omega
      exact ih f (addEntry s e.hdr e.content)
        (fun x hx => hwf x (List.mem_cons_of_mem e hx)) hlen

theorem renumberFrom_cons (c : Nat) (e : Entry) (es : List Entry) :
    renumberFrom c (e :: es) = freshEntry e.hdr c e.content :: renumberFrom (c + 1) es := rfl

/-- When no incoming entry dedups against the index or an earlier incoming
entry, folding the append renumbers the entries with consecutive inodes from
the store counter and leaves everything else unchanged. -/
theorem ingestFold_fresh (es : List Entry) :
    ∀ s : EntryStore,
      (∀ e ∈ es, dedupEligible e.hdr.mode = true → lookupHash s.hashIndex e.content = none) →
      (∀ e ∈ es, ∀ x ∈ s.entries, x.hdr.name ≠ e.hdr.name) →
      List.Pairwise (fun a b : Entry => a.hdr.name ≠ b.hdr.name) es →
      List.Pairwise (fun a b : Entry => a.content ≠ b.content)
        (es.filter (fun e => dedupEligible e.hdr.mode)) →
      (ingestFold s es).entries = s.entries ++ renumberFrom s.counter es ∧
      (ingestFold s es).counter = s.counter + es.length := by
  induction es with
  | nil =>
    intro s _ _ _ _
    exact ⟨by simp [ingestFold, renumberFrom], by simp [ingestFold]⟩
  | cons e es ih =>
    intro s hL hN hP hC
    have hstep : stepAdd s e =
        { entries := s.entries ++ [freshEntry e.hdr s.counter e.content],
          counter := s.counter + 1,
          hashIndex :=
            if dedupEligible e.hdr.mode then (e.content, s.counter) :: s.hashIndex
            else s.hashIndex } := by
      show addEntry s e.hdr e.content = _
      rw [addEntry_fresh s e.hdr e.content (hL e (List.mem_cons_self e es))]
      rw [insertEntry_append s.entries _
        (fun x hx => by
          rw [freshEntry_name]
          exact hN e (List.mem_cons_self e es) x hx)]
    have hfold : ingestFold s (e :: es) = ingestFold (stepAdd s e) es := rfl
    have hL2 : ∀ e2 ∈ es, dedupEligible e2.hdr.mode = true →
        lookupHash (stepAdd s e).hashIndex e2.content = none := by
      intro e2 he2 helig2
      rw [hstep]
      by_cases helig : dedupEligible e.hdr.mode = true
      · simp only [helig, if_true]
        rw [lookupHash]
        have hne : e.content ≠ e2.content := by
          have hfe : (e :: es).filter (fun x => dedupEligible x.hdr.mode)
              = e :: es.filter (fun x => dedupEligible x.hdr.mode) := by
            rw [List.filter_cons]
            simp [helig]
          rw [hfe] at hC
          exact (List.pairwise_cons.mp hC).1 e2
            (List.mem_filter.mpr ⟨he2, helig2⟩)
        rw [if_neg hne]
        exact hL e2 (List.mem_cons_of_mem e he2) helig2
      · have hfalse : dedupEligible e.hdr.mode = false := by
          cases hde : dedupEligible e.hdr.mode with
          | false => rfl
          | true => exact absurd hde helig
        simp only [hfalse, if_false]
        exact hL e2 (List.mem_cons_of_mem e he2) helig2
    have hN2 : ∀ e2 ∈ es, ∀ x ∈ (stepAdd s e).entries, x.hdr.name ≠ e2.hdr.name := by
      intro e2 he2 x hx
      rw [hstep] at hx
      rcases List.mem_append.mp hx with hm | hm
      · exact hN e2 (List.mem_cons_of_mem e he2) x hm
      · have hxe : x = freshEntry e.hdr s.counter e.content := by simpa using hm
        subst hxe
        rw [freshEntry_name]
        exact (List.pairwise_cons.mp hP).1 e2 he2
    have hC2 : List.Pairwise (fun a b : Entry => a.content ≠ b.content)
        (es.filter (fun x => dedupEligible x.hdr.mode)) := by
      rw [List.filter_cons] at hC
      by_cases helig : dedupEligible e.hdr.mode = true
      · simp only [helig, if_true] at hC
        exact (List.pairwise_cons.mp hC).2
      · have hfalse : dedupEligible e.hdr.mode = false := by
          cases hde : dedupEligible e.hdr.mode with
          | false => rfl
          | true => exact absurd hde helig
        simp only [hfalse] at hC
        simpa using hC
    obtain ⟨hent, hcnt⟩ := ih (stepAdd s e) hL2 hN2 (List.pairwise_cons.mp hP).2 hC2
    constructor
    · rw [hfold, hent, hstep]
      rw [renumberFrom_cons]
      simp [List.append_assoc]
    · rw [hfold, hcnt, hstep]
      simp only [List.length_cons]
      omega

theorem strip_fresh (e : Entry) (c : Nat) : stripIno (freshEntry e.hdr c e.content) = stripIno e := rfl

theorem renumber_strip (es : List Entry) :
    ∀ c : Nat, (renumberFrom c es).map stripIno = es.map stripIno := by
  induction es with
  | nil => intro c; rfl
  | cons e t ih =>
    intro c
    rw [renumberFrom_cons]
    simp [List.map_cons, strip_fresh, ih]

theorem renumber_names (es : List Entry) :
    ∀ c : Nat, (renumberFrom c es).map (fun e => e.hdr.name) = es.map (fun e => e.hdr.name) := by
  induction es with
  | nil => intro c; rfl
  | cons e t ih =>
    intro c
    rw [renumberFrom_cons]
    simp [List.map_cons, freshEntry_name, ih]

theorem renumber_ino_ge (es : List Entry) :
    ∀ c : Nat, ∀ x ∈ renumberFrom c es, c ≤ x.hdr.ino := by
  induction es with
  | nil => intro c x hx; simp [renumberFrom] at hx
  | cons e t ih =>
    intro c x hx
    rw [renumberFrom_cons] at hx
    rcases List.mem_cons.mp hx with hm | hm
    · subst hm
      rw [freshEntry_ino]
    · have := ih (c + 1) x hm
      omega

theorem renumber_ino_pairwise (es : List Entry) :
    ∀ c : Nat, List.Pairwise (fun a b : Entry => a.hdr.ino ≠ b.hdr.ino) (renumberFrom c es) := by
  induction es with
  | nil => intro c; exact List.Pairwise.nil
  | cons e t ih =>
    intro c
    rw [renumberFrom_cons]
    refine List.pairwise_cons.mpr ⟨?_, ih (c + 1)⟩
    intro b hb
    have hge := renumber_ino_ge t (c + 1) b hb
    rw [freshEntry_ino]
    omega

theorem renumber_find_isSome (es : List Entry) (p : List Nat) :
    ∀ c : Nat, (findByName (renumberFrom c es) p).isSome = (findByName es p).isSome := by
  induction es with
  | nil => intro c; rfl
  | cons e t ih =>
    intro c
    rw [renumberFrom_cons]
    unfold findByName
    cases hep : (e.hdr.name == p) with
    | true =>
      rw [@List.find?_cons_of_pos Entry (fun x => x.hdr.name == p)
            (freshEntry e.hdr c e.content) (renumberFrom (c + 1) t)
            (by simp [freshEntry_name, hep]),
          @List.find?_cons_of_pos Entry (fun x => x.hdr.name == p) e t hep]
      rfl
    | false =>
      rw [@List.find?_cons_of_neg Entry (fun x => x.hdr.name == p)
            (freshEntry e.hdr c e.content) (renumberFrom (c + 1) t)
            (by simp [freshEntry_name, hep]),
          @List.find?_cons_of_neg Entry (fun x => x.hdr.name == p) e t (by simp [hep])]
      exact ih (c + 1)

/-- In a store with pairwise distinct names and pairwise distinct inodes,
two paths share an inode exactly when they are the same present path. -/
theorem sharesInode_char (es : List Entry)
    (hname : List.Pairwise (fun a b : Entry => a.hdr.name ≠ b.hdr.name) es)
    (hino : List.Pairwise (fun a b : Entry => a.hdr.ino ≠ b.hdr.ino) es)
    (p q : List Nat) :
    sharesInodeEs es p q = (decide (p = q) && (findByName es p).isSome) := by
  by_cases hpq : p = q
  · subst hpq
    unfold sharesInodeEs
    cases hf : findByName es p with
    | none => simp [hf]
    | some a => simp [hf]
  · unfold sharesInodeEs
    cases hf : findByName es p with
    | none => simp [hf, hpq]
    | some a =>
      cases hg : findByName es q with
      | none => simp [hf, hg, hpq]
      | some b =>
        have ha : a ∈ es := List.mem_of_find?_eq_some hf
        have hb : b ∈ es := List.mem_of_find?_eq_some hg
        have hna : a.hdr.name = p := by
          have := List.find?_some hf
          simpa using this
        have hnb : b.hdr.name = q := by
          have := List.find?_some hg
          simpa using this
        have hab : a ≠ b := fun h => hpq (by rw [← hna, h, hnb])
        have hio : a.hdr.ino ≠ b.hdr.ino := by
          have hsym : Symmetric (fun x y : Entry => x.hdr.ino ≠ y.hdr.ino) :=
            fun x y hxy => Ne.symm hxy
          exact List.Pairwise.forall hsym hino ha hb hab
        simp [hf, hg, hpq, hio]

theorem length_le_flatten_enc (es : List Entry) :
    es.length ≤ ((es.map encodeEntry).flatten).length := by
  induction es with
  | nil => simp
  | cons e t ih =>
    simp only [List.map_cons, List.flatten_cons, List.length_append, List.length_cons]
    have h1 : 1 ≤ (encodeEntry e).length := by
      rw [encodeEntry_length]
      omega
    omega

/-- Claim C1, amended: for a well-formed store with pairwise distinct paths
and inodes whose dedup-eligible entries have pairwise distinct contents (no
hard-linked duplicates), ingesting the serialized bytes with their trailer
into a fresh store succeeds and yields the same list order and identical
per-path header fields and content up to inode renumbering, and two paths
share an inode in the result exactly when they do in the original. -/
theorem C1_roundtrip_amended (es : List Entry)
    (hwf : ∀ e ∈ es, WFEntry e)
    (hnames : List.Pairwise (fun a b => a ≠ b) (es.map (fun e => e.hdr.name)))
    (hinos : List.Pairwise (fun a b => a ≠ b) (es.map (fun e => e.hdr.ino)))
    (hconts : List.Pairwise (fun a b : Entry => a.content ≠ b.content)
      (es.filter (fun e => dedupEligible e.hdr.mode))) :
    ∃ s2 : EntryStore,
      ingest (writerBytes es) = some s2 ∧
      s2.entries.map stripIno = es.map stripIno ∧
      ∀ p q : List Nat, sharesInodeEs s2.entries p q = sharesInodeEs es p q := by
  have hnames2 : List.Pairwise (fun a b : Entry => a.hdr.name ≠ b.hdr.name) es :=
    List.pairwise_map.mp hnames
  have hinos2 : List.Pairwise (fun a b : Entry => a.hdr.ino ≠ b.hdr.ino) es :=
    List.pairwise_map.mp hinos
  have hbytes : writerBytes es = (es.map encodeEntry).flatten ++ encodeEntry trailerEntry := by
    rw [writerBytes, archiveBytes_eq_flatten]
  have hing : ingest (writerBytes es) = some (ingestFold emptyStore es) := by
    rw [ingest, hbytes]
    refine ingestLoop_encoded es _ emptyStore (fun e he => ⟨(hwf e he).1, (hwf e he).2.1⟩) ?_
    have h1 := length_le_flatten_enc es
    rw [List.length_append]
    omega
  obtain ⟨hent, hcnt⟩ := ingestFold_fresh es emptyStore
    (fun e he helig => rfl)
    (fun e he x hx => absurd hx (by simp [emptyStore]))
    hnames2 hconts
  have hent1 : (ingestFold emptyStore es).entries = renumberFrom 1 es := by
    rw [hent]
    simp [emptyStore]
  refine ⟨ingestFold emptyStore es, hing, ?_, ?_⟩
  · rw [hent1]
    exact renumber_strip es 1
  · intro p q
    rw [hent1]
    have hrnames : List.Pairwise (fun a b : Entry => a.hdr.name ≠ b.hdr.name)
        (renumberFrom 1 es) := by
      have hmn : (renumberFrom 1 es).map (fun e => e.hdr.name)
          = es.map (fun e => e.hdr.name) := renumber_names es 1
      exact List.pairwise_map.mp (hmn ▸ hnames)
    rw [sharesInode_char (renumberFrom 1 es) hrnames (renumber_ino_pairwise es 1) p q,
        sharesInode_char es hnames2 hinos2 p q,
        renumber_find_isSome es p 1]

theorem C1_roundtrip_amended_witness :
    (∀ e ∈ [({ hdr := mkRegHeader [97] 1, content := [120] } : Entry)], WFEntry e) ∧
    List.Pairwise (fun a b => a ≠ b)
      (([({ hdr := mkRegHeader [97] 1, content := [120] } : Entry)]).map
        (fun e => e.hdr.name)) ∧
    List.Pairwise (fun a b => a ≠ b)
      (([({ hdr := mkRegHeader [97] 1, content := [120] } : Entry)]).map
        (fun e => e.hdr.ino)) ∧
    List.Pairwise (fun a b : Entry => a.content ≠ b.content)
      (([({ hdr := mkRegHeader [97] 1, content := [120] } : Entry)]).filter
        (fun e => dedupEligible e.hdr.mode)) ∧
    (∃ s2 : EntryStore,
      ingest (writerBytes [({ hdr := mkRegHeader [97] 1, content := [120] } : Entry)])
        = some s2 ∧
      s2.entries.map stripIno
        = ([({ hdr := mkRegHeader [97] 1, content := [120] } : Entry)]).map stripIno ∧
      ∀ p q : List Nat,
        sharesInodeEs s2.entries p q
          = sharesInodeEs [({ hdr := mkRegHeader [97] 1, content := [120] } : Entry)] p q) :=
  ⟨by decide, by decide, by decide, by decide,
   C1_roundtrip_amended [{ hdr := mkRegHeader [97] 1, content := [120] }]
     (by decide) (by decide) (by decide) (by decide)⟩

/-- Claim C1, counterexample: a store holding two hard-linked duplicates
(one content stored once, the second path dedup-zeroed onto the same inode)
does not round-trip: after serializing and ingesting, the two paths no
longer share an inode, because the duplicate is stored with empty content
and ingest re-deduplicates by content hash. -/
theorem C1_counterexample :
    sharesInodeEs (addEntry (addEntry emptyStore (mkRegHeader [97] 1) [120])
      (mkRegHeader [98] 1) [120]).entries [97] [98] = true ∧
    (ingest (writerBytes (addEntry (addEntry emptyStore (mkRegHeader [97] 1) [120])
      (mkRegHeader [98] 1) [120]).entries)).map
        (fun s => sharesInodeEs s.entries [97] [98]) = some false :=
  ⟨by decide, by decide⟩
